import Mathlib

/-!
Verification of the tag subsystem of the sync-engine repository
(`inbox/models/tag.py`): name validation, canonical tag provisioning,
user mutability policy, and the soft-delete cascade to tag associations.

The database is modelled as explicit lists of rows; SQLAlchemy queries
become list filters following the source text of each query.
-/

namespace SyncEngine

/-- Reserved provider name list, from `Tag.RESERVED_PROVIDER_NAMES`. -/
def RESERVED_PROVIDER_NAMES : List String :=
  ["gmail", "outlook", "yahoo", "exchange", "inbox", "icloud", "aol"]

/-- Canonical tag names, from `Tag.CANONICAL_TAG_NAMES`. -/
def CANONICAL_TAG_NAMES : List String :=
  ["inbox", "archive", "drafts", "sending", "sent", "spam", "starred",
   "trash", "unread", "unseen", "attachment"]

/-- Reserved operational tag names, from `Tag.RESERVED_TAG_NAMES`. -/
def RESERVED_TAG_NAMES : List String :=
  ["all", "archive", "drafts", "send", "replied", "file", "attachment",
   "unseen"]

/-- Tags addable and removable via the API, from `Tag.USER_MUTABLE_TAGS`. -/
def USER_MUTABLE_TAGS : List String :=
  ["unread", "starred", "spam", "trash", "inbox", "archive"]

/-- A row of the `tag` table: columns of the `Tag` model.  `deleted_at` is
the nullable soft-delete timestamp inherited from `MailSyncBase`. -/
structure Tag where
  id : Nat
  namespace_id : Nat
  public_id : String
  name : String
  user_created : Bool
  deleted_at : Option Nat
deriving DecidableEq, Repr

/-- A row of the `tagitem` association table (tag to thread), with its own
soft-delete column. -/
structure TagItem where
  tag_id : Nat
  thread_id : Nat
  deleted_at : Option Nat
deriving DecidableEq, Repr

/-- The database state visible to the subsystem: the `tag` and `tagitem`
tables. -/
structure DBSession where
  tags : List Tag
  tagitems : List TagItem
deriving DecidableEq, Repr

/-- `Tag.user_removable`: `self.user_created or self.public_id in
self.USER_MUTABLE_TAGS or self.public_id == 'unseen'`. -/
def Tag.user_removable (t : Tag) : Bool :=
  t.user_created || USER_MUTABLE_TAGS.contains t.public_id
    || t.public_id == "unseen"

/-- `Tag.user_addable`: `self.user_created or self.public_id in
self.USER_MUTABLE_TAGS`. -/
def Tag.user_addable (t : Tag) : Bool :=
  t.user_created || USER_MUTABLE_TAGS.contains t.public_id

/-- Python's `str.lower`, mapped over the character data. -/
def str_lower (s : String) : String := ⟨s.data.map Char.toLower⟩

/-- Python's `str.startswith`, over the character data. -/
def str_startswith (s p : String) : Bool := p.data.isPrefixOf s.data

/-- `Tag.name_available(name, namespace_id, db_session)`.  The three checks
in source order: lowercase provider-name starts-with, exact membership in
the reserved or canonical list, and membership of `name` among the names
of tags of the namespace (`query(Tag.name).filter(Tag.namespace_id ==
namespace_id)`, which carries no `deleted_at` filter). -/
def name_available (name : String) (namespace_id : Nat) (db : DBSession) :
    Bool :=
  if RESERVED_PROVIDER_NAMES.any (fun p => str_startswith (str_lower name) p) then
    false
  else if RESERVED_TAG_NAMES.contains name
      || CANONICAL_TAG_NAMES.contains name then
    false
  else if ((db.tags.filter (fun t => t.namespace_id == namespace_id)).map
      Tag.name).contains name then
    false
  else
    true

/-- One fresh `Tag(namespace=namespace, public_id=n, name=n)` row per
missing canonical name, with store-assigned consecutive ids;
`user_created` takes its server default `false` and `deleted_at` starts
NULL. -/
def mkCanonicalRows (ns : Nat) : Nat → List String → List Tag
  | _, [] => []
  | base, n :: rest =>
    { id := base, namespace_id := ns, public_id := n, name := n,
      user_created := false, deleted_at := none }
      :: mkCanonicalRows ns (base + 1) rest

/-- `Tag.create_canonical_tags(namespace, db_session)`: query the tags of
the namespace whose `public_id` is in the canonical list (no `deleted_at`
filter in the source query), take the canonical names not among their
public ids, and add one new tag per missing name.  `fresh` is the first
store-assigned id for the new rows. -/
def create_canonical_tags (ns : Nat) (db : DBSession) (fresh : Nat) :
    DBSession :=
  let existing_canonical_tags := db.tags.filter
    (fun t => t.namespace_id == ns
      && CANONICAL_TAG_NAMES.contains t.public_id)
  let missing_canonical_names := CANONICAL_TAG_NAMES.filter
    (fun n => !(existing_canonical_tags.any (fun t => t.public_id == n)))
  { db with
    tags := db.tags ++ mkCanonicalRows ns fresh missing_canonical_names }

/-- Modelled from the spec: `propagate_soft_delete` of
`inbox/sqlalchemy_ext/util.py` is not part of the sources.  Per the spec,
the cascade sets `deleted_at` (matching the tag's deletion time) on every
`tagitem` row referencing the tag's id that does not already have
`deleted_at` set, and propagates only when the updated tag is
soft-deleted. -/
def propagate_soft_delete (target : Tag) (items : List TagItem) :
    List TagItem :=
  match target.deleted_at with
  | none => items
  | some ts => items.map (fun it =>
      if it.tag_id == target.id && it.deleted_at == none then
        { it with deleted_at := some ts }
      else it)

/-- `_after_tag_update`: the `after_update` event hook on `Tag`, invoking
`propagate_soft_delete` over the `tagitems` table keyed by `tag_id`. -/
def after_tag_update (target : Tag) (db : DBSession) : DBSession :=
  { db with tagitems := propagate_soft_delete target db.tagitems }

/-- Inserting a tag row.  No update hook fires on insert: the source
registers `_after_tag_update` for the `after_update` event only. -/
def create_tag (db : DBSession) (t : Tag) : DBSession :=
  { db with tags := db.tags ++ [t] }

/-- Modelled from the spec: `TagStore.Rename` updates `name` only; the
`after_update` hook from the source then fires on the updated row. -/
def rename_tag (db : DBSession) (tid : Nat) (newName : String) :
    DBSession :=
  match db.tags.find? (fun t => t.id == tid) with
  | none => db
  | some t =>
    after_tag_update { t with name := newName }
      { db with
        tags := db.tags.map (fun u =>
          if u.id == tid then { u with name := newName } else u) }

/-- Modelled from the spec: `TagStore.SoftDelete` sets `deleted_at` to the
deletion time; the `after_update` hook from the source then fires on the
updated row, within the same transaction. -/
def soft_delete_tag (db : DBSession) (tid : Nat) (time : Nat) :
    DBSession :=
  match db.tags.find? (fun t => t.id == tid) with
  | none => db
  | some t =>
    after_tag_update { t with deleted_at := some time }
      { db with
        tags := db.tags.map (fun u =>
          if u.id == tid then { u with deleted_at := some time } else u) }

/-- The `(namespace_id, name)` key of a row, first column pair of
`__table_args__`. -/
def nameKey (t : Tag) : Nat × String := (t.namespace_id, t.name)

/-- The `(namespace_id, public_id)` key of a row, second column pair of
`__table_args__`. -/
def pidKey (t : Tag) : Nat × String := (t.namespace_id, t.public_id)

/-- Executable no-duplicate check on a key column. -/
def keysNodup : List (Nat × String) → Bool
  | [] => true
  | k :: rest => !(rest.contains k) && keysNodup rest

/-- The two composite unique constraints of `__table_args__`: no two rows
share `(namespace_id, name)` and no two rows share
`(namespace_id, public_id)`. -/
def table_args_ok (tags : List Tag) : Bool :=
  keysNodup (tags.map nameKey) && keysNodup (tags.map pidKey)

/-- Insert guarded by the storage-level unique constraints: a violating
insert is rejected and the transaction rolled back. -/
def create_tag_guarded (db : DBSession) (t : Tag) : DBSession :=
  let db' := create_tag db t
  if table_args_ok db'.tags then db' else db

/-- Rename guarded by the storage-level unique constraints. -/
def rename_tag_guarded (db : DBSession) (tid : Nat) (newName : String) :
    DBSession :=
  let db' := rename_tag db tid newName
  if table_args_ok db'.tags then db' else db

/-- Canonical-tag provisioning guarded by the storage-level unique
constraints. -/
def create_canonical_tags_guarded (ns : Nat) (db : DBSession)
    (fresh : Nat) : DBSession :=
  let db' := create_canonical_tags ns db fresh
  if table_args_ok db'.tags then db' else db

/-- A namespace-1 database holding a single soft-deleted tag named
"foo" and no active tag of that name. -/
def dbSoftDeletedFoo : DBSession :=
  ⟨[{ id := 1, namespace_id := 1, public_id := "x", name := "foo",
      user_created := true, deleted_at := some 10 }], []⟩

/-- Claim C1, counterexample: in a namespace holding only a soft-deleted
tag named "foo" (no active tag of that name, and "foo" triggers neither
the provider-name rule nor the reserved/canonical rule), `name_available`
returns `false`, not `true` as claimed: the duplicate-name query carries
no `deleted_at` filter. -/
theorem name_available_softdeleted_counterexample :
    (dbSoftDeletedFoo.tags.any (fun t => t.namespace_id == 1
      && t.name == "foo" && !(t.deleted_at == none)) = true)
    ∧ (dbSoftDeletedFoo.tags.any (fun t => t.namespace_id == 1
      && t.name == "foo" && t.deleted_at == none) = false)
    ∧ (RESERVED_PROVIDER_NAMES.any
      (fun p => str_startswith (str_lower "foo") p) = false)
    ∧ ((RESERVED_TAG_NAMES.contains "foo"
      || CANONICAL_TAG_NAMES.contains "foo") = false)
    ∧ name_available "foo" 1 dbSoftDeletedFoo = false := by decide

/-- Claim C1, amended: the duplicate-name step of `name_available`
considers every row of the namespace regardless of `deleted_at`: whenever
some tag of the namespace (active or soft-deleted) carries the proposed
name and no reserved rule fires, the name is unavailable. -/
theorem name_available_duplicate_any_row (name : String) (ns : Nat)
    (db : DBSession)
    (h1 : RESERVED_PROVIDER_NAMES.any
      (fun p => str_startswith (str_lower name) p) = false)
    (h2 : (RESERVED_TAG_NAMES.contains name
      || CANONICAL_TAG_NAMES.contains name) = false)
    (h3 : ((db.tags.filter (fun t => t.namespace_id == ns)).map
      Tag.name).contains name = true) :
    name_available name ns db = false := by
  simp only [name_available, h1, h2, h3]
  rfl

/-- Claim C1, witness of the amended theorem at the soft-deleted
database. -/
theorem name_available_duplicate_any_row_witness :
    (((dbSoftDeletedFoo.tags.filter (fun t => t.namespace_id == 1)).map
      Tag.name).contains "foo" = true)
    ∧ name_available "foo" 1 dbSoftDeletedFoo = false :=
  ⟨by decide,
   name_available_duplicate_any_row "foo" 1 dbSoftDeletedFoo
     (by decide) (by decide) (by decide)⟩

/-- Claim C6, counterexample: "Spam" lowercases to the canonical name
"spam", yet `name_available` accepts it on an empty database: the
reserved/canonical comparison of the source is exact, not
case-insensitive. -/
theorem reserved_names_case_sensitive_counterexample :
    CANONICAL_TAG_NAMES.contains (str_lower "Spam") = true
    ∧ name_available "Spam" 1 ⟨[], []⟩ = true := by decide

/-- Claim C6, amended: a name exactly equal to a reserved operational name
or a canonical name is unavailable, for every namespace and every database
state. -/
theorem name_available_reserved_exact (name : String) (ns : Nat)
    (db : DBSession)
    (h : (RESERVED_TAG_NAMES.contains name
      || CANONICAL_TAG_NAMES.contains name) = true) :
    name_available name ns db = false := by
  unfold name_available
  split
  · rfl
  · simp only [h]

/-- Claim C6, witness of the amended theorem at the reserved name
"archive" over an empty database. -/
theorem name_available_reserved_exact_witness :
    ((RESERVED_TAG_NAMES.contains "archive"
      || CANONICAL_TAG_NAMES.contains "archive") = true)
    ∧ name_available "archive" 2 ⟨[], []⟩ = false :=
  ⟨by decide, name_available_reserved_exact "archive" 2 ⟨[], []⟩ (by decide)⟩

/-- Claim C7: a name whose lowercase form starts with a reserved provider
name is unavailable, for every namespace and every database state. -/
theorem name_available_reserved_provider (name : String) (ns : Nat)
    (db : DBSession)
    (h : RESERVED_PROVIDER_NAMES.any
      (fun p => str_startswith (str_lower name) p) = true) :
    name_available name ns db = false := by
  simp only [name_available, h]
  rfl

/-- Claim C7, witness at "gmailLabel", whose lowercase form starts with
the reserved provider name "gmail". -/
theorem name_available_reserved_provider_witness :
    (RESERVED_PROVIDER_NAMES.any
      (fun p => str_startswith (str_lower "gmailLabel") p) = true)
    ∧ name_available "gmailLabel" 7 ⟨[], []⟩ = false :=
  ⟨by decide,
   name_available_reserved_provider "gmailLabel" 7 ⟨[], []⟩ (by decide)⟩

/-- Claim C8: for every non-user-created tag whose `public_id` is
"unseen", `user_removable` is `true` and `user_addable` is `false`. -/
theorem unseen_removable_not_addable (t : Tag)
    (h1 : t.user_created = false) (h2 : t.public_id = "unseen") :
    t.user_removable = true ∧ t.user_addable = false := by
  unfold Tag.user_removable Tag.user_addable
  rw [h1, h2]
  decide

/-- A concrete system-created "unseen" tag. -/
def unseenExample : Tag :=
  { id := 3, namespace_id := 1, public_id := "unseen",
    name := "unseen", user_created := false, deleted_at := none }

/-- Claim C8, witness at a concrete system-created "unseen" tag. -/
theorem unseen_removable_not_addable_witness :
    unseenExample.user_created = false ∧ unseenExample.public_id = "unseen"
      ∧ (unseenExample.user_removable = true
        ∧ unseenExample.user_addable = false) :=
  ⟨rfl, rfl, unseen_removable_not_addable unseenExample rfl rfl⟩

/-- Claim C10: for every tag instance, `user_addable` implies
`user_removable`. -/
theorem user_addable_implies_removable (t : Tag)
    (h : t.user_addable = true) : t.user_removable = true := by
  unfold Tag.user_addable at h
  unfold Tag.user_removable
  rw [h]
  rfl

/-- A concrete user-created tag. -/
def userTagExample : Tag :=
  { id := 9, namespace_id := 4, public_id := "abc",
    name := "mytag", user_created := true, deleted_at := none }

/-- Claim C10, witness at a concrete user-created tag. -/
theorem user_addable_implies_removable_witness :
    userTagExample.user_addable = true
      ∧ userTagExample.user_removable = true :=
  ⟨rfl, user_addable_implies_removable userTagExample rfl⟩

/-- Every row produced by the cascade map that references the deleted tag
carries a non-NULL `deleted_at`. -/
lemma propagate_map_sets_all (tid time : Nat) (items : List TagItem) :
    ∀ it ∈ items.map (fun it =>
        if it.tag_id == tid && it.deleted_at == none then
          { it with deleted_at := some time } else it),
      it.tag_id = tid → it.deleted_at ≠ none := by
  intro it hit htid
  rw [List.mem_map] at hit
  obtain ⟨a, ha, rfl⟩ := hit
  by_cases hg : (a.tag_id == tid && a.deleted_at == none) = true
  · rw [if_pos hg]
    simp
  · rw [if_neg hg] at htid ⊢
    intro hcon
    exact hg (by simp [htid, hcon])

/-- The cascade map leaves every row referencing another tag unchanged. -/
lemma propagate_map_frames_others (tid time : Nat) (items : List TagItem) :
    (items.map (fun it =>
        if it.tag_id == tid && it.deleted_at == none then
          { it with deleted_at := some time } else it)).filter
      (fun it => !(it.tag_id == tid))
    = items.filter (fun it => !(it.tag_id == tid)) := by
  induction items with
  | nil => rfl
  | cons a rest ih =>
    rw [List.map_cons]
    by_cases hg : (a.tag_id == tid && a.deleted_at == none) = true
    · have h1 : (a.tag_id == tid) = true := by
        cases hb : (a.tag_id == tid)
        · rw [hb] at hg
          simp at hg
        · rfl
      rw [if_pos hg, List.filter_cons, List.filter_cons]
      dsimp only
      rw [h1]
      rw [if_neg (by decide), if_neg (by decide)]
      exact ih
    · rw [if_neg hg, List.filter_cons, List.filter_cons]
      cases h1 : (a.tag_id == tid)
      · rw [if_pos (by decide), if_pos (by decide), ih]
      · rw [if_neg (by decide), if_neg (by decide)]
        exact ih

/-- Claim C4: the cascade to `tagitem` rows fires only on the transition
to soft-deleted.  Creating a tag never fires the hook (it listens for
`after_update` only), and renaming a tag whose `deleted_at` is NULL
leaves every `tagitem` row unchanged. -/
theorem tag_update_cascade_only_on_softdelete (db : DBSession)
    (newTag : Tag) (tid : Nat) (newName : String)
    (h : ∀ u ∈ db.tags, u.id = tid → u.deleted_at = none) :
    (create_tag db newTag).tagitems = db.tagitems
    ∧ (rename_tag db tid newName).tagitems = db.tagitems := by
  refine ⟨rfl, ?_⟩
  unfold rename_tag
  cases hf : db.tags.find? (fun t => t.id == tid) with
  | none => rfl
  | some u =>
    have hpred := List.find?_some hf
    have hid : u.id = tid := by simpa using hpred
    have hdel : u.deleted_at = none :=
      h u (List.mem_of_find?_eq_some hf) hid
    simp [after_tag_update, propagate_soft_delete, hdel]

/-- Two active tags, two associations of tag 1 and one of tag 2, all
active. -/
def dbRename : DBSession :=
  ⟨[{ id := 1, namespace_id := 1, public_id := "p1", name := "one",
      user_created := true, deleted_at := none },
    { id := 2, namespace_id := 1, public_id := "p2", name := "two",
      user_created := true, deleted_at := none }],
   [{ tag_id := 1, thread_id := 100, deleted_at := none },
    { tag_id := 1, thread_id := 101, deleted_at := none },
    { tag_id := 2, thread_id := 102, deleted_at := none }]⟩

/-- Claim C4, witness: creating a tag and renaming active tag 1 leave the
association table of `dbRename` untouched. -/
theorem tag_update_cascade_only_on_softdelete_witness :
    (∀ u ∈ dbRename.tags, u.id = 1 → u.deleted_at = none)
    ∧ ((create_tag dbRename userTagExample).tagitems = dbRename.tagitems
      ∧ (rename_tag dbRename 1 "renamed").tagitems = dbRename.tagitems) :=
  ⟨by decide,
   tag_update_cascade_only_on_softdelete dbRename userTagExample 1 "renamed"
     (by decide)⟩

/-- Claim C5: soft-deleting an existing tag sets `deleted_at` on every
association row referencing it (in particular all of its previously
active ones), leaves the association rows of every other tag unchanged,
and neither adds nor removes association rows — all within the one
state transition modelling the transaction. -/
theorem soft_delete_cascades_to_tagitems (db : DBSession)
    (tid time : Nat)
    (hex : db.tags.any (fun t => t.id == tid) = true) :
    (∀ it ∈ (soft_delete_tag db tid time).tagitems,
        it.tag_id = tid → it.deleted_at ≠ none)
    ∧ ((soft_delete_tag db tid time).tagitems.filter
        (fun it => !(it.tag_id == tid))
      = db.tagitems.filter (fun it => !(it.tag_id == tid)))
    ∧ (soft_delete_tag db tid time).tagitems.length
      = db.tagitems.length := by
  unfold soft_delete_tag
  cases hf : db.tags.find? (fun t => t.id == tid) with
  | none =>
    rw [List.find?_eq_none] at hf
    rw [List.any_eq_true] at hex
    obtain ⟨t, hmem, hpred⟩ := hex
    exact absurd hpred (hf t hmem)
  | some u =>
    have hpred := List.find?_some hf
    have hid : u.id = tid := by simpa using hpred
    simp only [after_tag_update, propagate_soft_delete, hid]
    exact ⟨propagate_map_sets_all tid time db.tagitems,
      propagate_map_frames_others tid time db.tagitems,
      List.length_map db.tagitems _⟩

/-- Tag 1 is active with two active associations; tag 2 has one. -/
def dbDelete : DBSession :=
  ⟨[{ id := 1, namespace_id := 1, public_id := "q1", name := "alpha",
      user_created := true, deleted_at := none },
    { id := 2, namespace_id := 1, public_id := "q2", name := "beta",
      user_created := true, deleted_at := none }],
   [{ tag_id := 1, thread_id := 200, deleted_at := none },
    { tag_id := 1, thread_id := 201, deleted_at := none },
    { tag_id := 2, thread_id := 202, deleted_at := none }]⟩

/-- Claim C5, witness: soft-deleting tag 1 of `dbDelete` at time 7. -/
theorem soft_delete_cascades_to_tagitems_witness :
    (dbDelete.tags.any (fun t => t.id == 1) = true)
    ∧ ((∀ it ∈ (soft_delete_tag dbDelete 1 7).tagitems,
        it.tag_id = 1 → it.deleted_at ≠ none)
      ∧ ((soft_delete_tag dbDelete 1 7).tagitems.filter
          (fun it => !(it.tag_id == 1))
        = dbDelete.tagitems.filter (fun it => !(it.tag_id == 1)))
      ∧ (soft_delete_tag dbDelete 1 7).tagitems.length
        = dbDelete.tagitems.length) :=
  ⟨by decide, soft_delete_cascades_to_tagitems dbDelete 1 7 (by decide)⟩

/-- Among the rows generated for a list of missing names, the name `n`
appears (with namespace `ns` and canonical `public_id`) whenever `n` is in
the list. -/
lemma mkCanonicalRows_any_pid (ns : Nat) (n : String)
    (hn : n ∈ CANONICAL_TAG_NAMES) :
    ∀ (base : Nat) (names : List String), n ∈ names →
      ((mkCanonicalRows ns base names).filter
        (fun t => t.namespace_id == ns
          && CANONICAL_TAG_NAMES.contains t.public_id)).any
        (fun t => t.public_id == n) = true := by
  intro base names
  induction names generalizing base with
  | nil => intro h; cases h
  | cons m rest ih =>
    intro hmem
    rcases List.mem_cons.mp hmem with rfl | hmem'
    · rw [mkCanonicalRows, List.filter_cons]
      rw [if_pos (by simp [hn])]
      rw [List.any_cons]
      simp
    · have htail := ih (base + 1) hmem'
      rw [mkCanonicalRows, List.filter_cons]
      split
      · rw [List.any_cons, htail, Bool.or_true]
      · exact htail

/-- After `create_canonical_tags`, every canonical name is among the
public ids of the namespace's canonical rows, so a second run finds
nothing missing. -/
lemma canonical_present_after (ns f : Nat) (db : DBSession) (n : String)
    (hn : n ∈ CANONICAL_TAG_NAMES) :
    (((create_canonical_tags ns db f).tags.filter
      (fun t => t.namespace_id == ns
        && CANONICAL_TAG_NAMES.contains t.public_id)).any
      (fun t => t.public_id == n)) = true := by
  simp only [create_canonical_tags, List.filter_append, List.any_append]
  by_cases hpres : ((db.tags.filter
      (fun t => t.namespace_id == ns
        && CANONICAL_TAG_NAMES.contains t.public_id)).any
      (fun t => t.public_id == n)) = true
  · rw [hpres, Bool.true_or]
  · have hx : ((db.tags.filter
        (fun t => t.namespace_id == ns
          && CANONICAL_TAG_NAMES.contains t.public_id)).any
        (fun t => t.public_id == n)) = false := by
      cases hb : ((db.tags.filter
          (fun t => t.namespace_id == ns
            && CANONICAL_TAG_NAMES.contains t.public_id)).any
          (fun t => t.public_id == n))
      · rfl
      · exact absurd hb hpres
    rw [hx, Bool.false_or]
    apply mkCanonicalRows_any_pid ns n hn f
    rw [List.mem_filter]
    exact ⟨hn, by rw [hx]; rfl⟩

/-- Claim C3: `create_canonical_tags` is idempotent — a second call on the
same namespace adds no row and leaves the database unchanged, whatever the
prior state. -/
theorem create_canonical_tags_idempotent (ns : Nat) (db : DBSession)
    (f1 f2 : Nat) :
    create_canonical_tags ns (create_canonical_tags ns db f1) f2
      = create_canonical_tags ns db f1 := by
  have hmiss : CANONICAL_TAG_NAMES.filter
      (fun n => !(((create_canonical_tags ns db f1).tags.filter
        (fun t => t.namespace_id == ns
          && CANONICAL_TAG_NAMES.contains t.public_id)).any
        (fun t => t.public_id == n))) = [] := by
    rw [List.filter_eq_nil_iff]
    intro n hn
    rw [canonical_present_after ns f1 db n hn]
    simp
  have step : create_canonical_tags ns (create_canonical_tags ns db f1) f2
      = { create_canonical_tags ns db f1 with
          tags := (create_canonical_tags ns db f1).tags
            ++ mkCanonicalRows ns f2 (CANONICAL_TAG_NAMES.filter
              (fun n => !(((create_canonical_tags ns db f1).tags.filter
                (fun t => t.namespace_id == ns
                  && CANONICAL_TAG_NAMES.contains t.public_id)).any
                (fun t => t.public_id == n)))) } := rfl
  rw [step, hmiss]
  rw [show mkCanonicalRows ns f2 ([] : List String) = [] from rfl]
  rw [List.append_nil]

/-- The canonical name list has no duplicates. -/
lemma canonical_names_nodup : CANONICAL_TAG_NAMES.Nodup := by decide

/-- A nodup list holds any element at most once. -/
lemma countP_beq_le_one_of_nodup {α} [BEq α] [LawfulBEq α] (l : List α)
    (a : α) (hl : l.Nodup) : l.countP (· == a) ≤ 1 := by
  induction l with
  | nil => simp
  | cons x xs ih =>
    rw [List.countP_cons]
    rcases List.nodup_cons.mp hl with ⟨hx, hxs⟩
    by_cases hxa : (x == a) = true
    · have hax : a = x := (eq_of_beq hxa).symm
      have h0 : xs.countP (· == a) = 0 := by
        rw [List.countP_eq_zero]
        intro b hb hba
        have hba' : b = a := eq_of_beq hba
        rw [hba', hax] at hb
        exact hx hb
      rw [h0, if_pos hxa]
    · rw [if_neg hxa]
      simpa using ih hxs
/-- A nodup list holds each of its elements exactly once. -/
lemma countP_beq_eq_one_of_nodup_mem {α} [BEq α] [LawfulBEq α]
    {l : List α} {a : α} (hl : l.Nodup) (ha : a ∈ l) :
    l.countP (· == a) = 1 := by
  have hle := countP_beq_le_one_of_nodup l a hl
  have hpos : 0 < l.countP (· == a) :=
    List.countP_pos_iff.mpr ⟨a, ha, by simp⟩
  omega

/-- Counting active rows of public id `n` among the freshly generated
canonical rows counts the occurrences of `n` in the generating list. -/
lemma countP_mkCanonicalRows (ns : Nat) (n : String) :
    ∀ (base : Nat) (names : List String),
      (mkCanonicalRows ns base names).countP
        (fun t => t.namespace_id == ns && t.public_id == n
          && t.deleted_at == none)
      = names.countP (fun m => m == n) := by
  intro base names
  induction names generalizing base with
  | nil => rfl
  | cons m rest ih =>
    rw [mkCanonicalRows, List.countP_cons, List.countP_cons, ih]
    congr 1
    simp

/-- Among rows with nodup `(namespace_id, public_id)` keys, at most one
row is an active canonical row of a given public id. -/
lemma countP_pid_le_one (l : List Tag) (ns : Nat) (n : String)
    (huniq : (l.map pidKey).Nodup) :
    l.countP (fun t => t.namespace_id == ns && t.public_id == n
      && t.deleted_at == none) ≤ 1 := by
  have h1 : l.countP (fun t => t.namespace_id == ns && t.public_id == n
      && t.deleted_at == none) ≤ l.countP (fun t => pidKey t == (ns, n)) := by
    apply List.countP_mono_left
    intro t _ hp
    simp only [Bool.and_eq_true] at hp
    have hns : t.namespace_id = ns := by simpa using hp.1.1
    have hpid : t.public_id = n := by simpa using hp.1.2
    simp [pidKey, hns, hpid]
  have h2 : l.countP (fun t => pidKey t == (ns, n))
      = (l.map pidKey).countP (· == (ns, n)) := by
    rw [List.countP_map]
    rfl
  have h3 : (l.map pidKey).countP (· == (ns, n)) ≤ 1 :=
    countP_beq_le_one_of_nodup _ _ huniq
  omega

/-- Claim C2, counterexample: a namespace whose only row is a soft-deleted
canonical tag (`public_id` "inbox").  `create_canonical_tags` does not
recreate it — its existence query has no `deleted_at` filter — so the
canonical name "inbox" ends with zero active tags rather than exactly
one. -/
def dbSoftDeletedCanonical : DBSession :=
  ⟨[{ id := 1, namespace_id := 1, public_id := "inbox", name := "inbox",
      user_created := false, deleted_at := some 5 }], []⟩

/-- Claim C2, counterexample theorem: after the call, zero active "inbox"
tags remain in the namespace. -/
theorem create_canonical_tags_softdeleted_counterexample :
    (dbSoftDeletedCanonical.tags.any (fun t => t.namespace_id == 1
      && t.public_id == "inbox" && !(t.deleted_at == none)) = true)
    ∧ ((create_canonical_tags 1 dbSoftDeletedCanonical 2).tags.countP
      (fun t => t.namespace_id == 1 && t.public_id == "inbox"
        && t.deleted_at == none) = 0) := by decide

/-- Claim C2, amended: provided the namespace's rows respect the
`(namespace_id, public_id)` unique constraint and none of its
canonical-public-id rows is soft-deleted, after `create_canonical_tags`
every canonical name has exactly one active tag with that public id. -/
theorem create_canonical_tags_active_exactly_one (ns fresh : Nat)
    (db : DBSession) (n : String)
    (hn : n ∈ CANONICAL_TAG_NAMES)
    (huniq : (db.tags.map pidKey).Nodup)
    (hactive : ∀ t ∈ db.tags, t.namespace_id = ns →
      t.public_id ∈ CANONICAL_TAG_NAMES → t.deleted_at = none) :
    (create_canonical_tags ns db fresh).tags.countP
      (fun t => t.namespace_id == ns && t.public_id == n
        && t.deleted_at == none) = 1 := by
  simp only [create_canonical_tags, List.countP_append]
  rw [countP_mkCanonicalRows]
  by_cases hpres : (db.tags.any (fun t => t.namespace_id == ns
      && t.public_id == n)) = true
  · rw [List.any_eq_true] at hpres
    obtain ⟨t, htmem, htp⟩ := hpres
    simp only [Bool.and_eq_true] at htp
    have htns : t.namespace_id = ns := by simpa using htp.1
    have htpid : t.public_id = n := by simpa using htp.2
    have htdel : t.deleted_at = none :=
      hactive t htmem htns (by rw [htpid]; exact hn)
    have hpos : 0 < db.tags.countP (fun t => t.namespace_id == ns
        && t.public_id == n && t.deleted_at == none) :=
      List.countP_pos_iff.mpr ⟨t, htmem, by simp [htns, htpid, htdel]⟩
    have hle := countP_pid_le_one db.tags ns n huniq
    have hex : ((db.tags.filter (fun t => t.namespace_id == ns
        && CANONICAL_TAG_NAMES.contains t.public_id)).any
        (fun t => t.public_id == n)) = true := by
      rw [List.any_filter, List.any_eq_true]
      exact ⟨t, htmem, by simp [htns, htpid, hn]⟩
    have hzero : (CANONICAL_TAG_NAMES.filter (fun m =>
        !((db.tags.filter (fun t => t.namespace_id == ns
          && CANONICAL_TAG_NAMES.contains t.public_id)).any
          (fun t => t.public_id == m)))).countP (fun m => m == n) = 0 := by
      rw [List.countP_eq_zero]
      intro b hb hbn
      have hb' : b = n := eq_of_beq hbn
      subst hb'
      rcases List.mem_filter.mp hb with ⟨-, hq⟩
      rw [hex] at hq
      simp at hq
    rw [hzero]
    omega
  · have habs : ∀ t ∈ db.tags,
        ¬((t.namespace_id == ns && t.public_id == n) = true) := by
      intro t htmem hcontra
      exact hpres (List.any_eq_true.mpr ⟨t, htmem, hcontra⟩)
    have hzero1 : db.tags.countP (fun t => t.namespace_id == ns
        && t.public_id == n && t.deleted_at == none) = 0 := by
      rw [List.countP_eq_zero]
      intro t htmem hp
      apply habs t htmem
      simp only [Bool.and_eq_true] at hp ⊢
      exact hp.1
    have hex : ((db.tags.filter (fun t => t.namespace_id == ns
        && CANONICAL_TAG_NAMES.contains t.public_id)).any
        (fun t => t.public_id == n)) = false := by
      cases hb : ((db.tags.filter (fun t => t.namespace_id == ns
          && CANONICAL_TAG_NAMES.contains t.public_id)).any
          (fun t => t.public_id == n))
      · rfl
      · exfalso
        rw [List.any_filter, List.any_eq_true] at hb
        obtain ⟨t, htmem, hpp⟩ := hb
        apply habs t htmem
        simp only [Bool.and_eq_true] at hpp ⊢
        exact ⟨hpp.1.1, hpp.2⟩
    have hone : (CANONICAL_TAG_NAMES.filter (fun m =>
        !((db.tags.filter (fun t => t.namespace_id == ns
          && CANONICAL_TAG_NAMES.contains t.public_id)).any
          (fun t => t.public_id == m)))).countP (fun m => m == n) = 1 := by
      apply countP_beq_eq_one_of_nodup_mem
      · exact List.Nodup.filter _ canonical_names_nodup
      · rw [List.mem_filter]
        exact ⟨hn, by rw [hex]; rfl⟩
    rw [hzero1, hone]

/-- Claim C2, witness of the amended theorem: provisioning an empty
namespace yields exactly one active "inbox" tag. -/
theorem create_canonical_tags_active_exactly_one_witness :
    ("inbox" ∈ CANONICAL_TAG_NAMES)
    ∧ (((DBSession.mk [] []).tags.map pidKey).Nodup)
    ∧ ((create_canonical_tags 1 (DBSession.mk [] []) 10).tags.countP
        (fun t => t.namespace_id == 1 && t.public_id == "inbox"
          && t.deleted_at == none) = 1) :=
  ⟨by decide, by decide,
   create_canonical_tags_active_exactly_one 1 10 (DBSession.mk [] [])
     "inbox" (by decide) (by decide) (by decide)⟩

/-- The executable key check agrees with `List.Nodup`. -/
lemma keysNodup_eq_true_iff (l : List (Nat × String)) :
    keysNodup l = true ↔ l.Nodup := by
  induction l with
  | nil => simp [keysNodup]
  | cons k rest ih => simp [keysNodup, List.nodup_cons, ih]

/-- Key-respecting full-table uniqueness restricts to the active rows of
any namespace. -/
lemma active_keys_nodup_of_table_ok (tags : List Tag) (ns : Nat)
    (hok : table_args_ok tags = true) :
    ((tags.filter (fun t => t.namespace_id == ns
      && t.deleted_at == none)).map Tag.name).Nodup
    ∧ ((tags.filter (fun t => t.namespace_id == ns
      && t.deleted_at == none)).map Tag.public_id).Nodup := by
  rw [table_args_ok, Bool.and_eq_true, keysNodup_eq_true_iff,
    keysNodup_eq_true_iff] at hok
  obtain ⟨hname, hpid⟩ := hok
  constructor
  · have h1 : ((tags.filter (fun t => t.namespace_id == ns
        && t.deleted_at == none)).map nameKey).Nodup :=
      List.Nodup.sublist
        (List.Sublist.map nameKey (List.filter_sublist tags)) hname
    have heq : (tags.filter (fun t => t.namespace_id == ns
        && t.deleted_at == none)).map nameKey
        = ((tags.filter (fun t => t.namespace_id == ns
          && t.deleted_at == none)).map Tag.name).map (fun nm => (ns, nm)) := by
      rw [List.map_map]
      apply List.map_congr_left
      intro t ht
      rcases List.mem_filter.mp ht with ⟨-, hp⟩
      simp only [Bool.and_eq_true] at hp
      have hns : t.namespace_id = ns := by simpa using hp.1
      simp [nameKey, Function.comp, hns]
    rw [heq] at h1
    exact List.Nodup.of_map _ h1
  · have h1 : ((tags.filter (fun t => t.namespace_id == ns
        && t.deleted_at == none)).map pidKey).Nodup :=
      List.Nodup.sublist
        (List.Sublist.map pidKey (List.filter_sublist tags)) hpid
    have heq : (tags.filter (fun t => t.namespace_id == ns
        && t.deleted_at == none)).map pidKey
        = ((tags.filter (fun t => t.namespace_id == ns
          && t.deleted_at == none)).map Tag.public_id).map
            (fun pid => (ns, pid)) := by
      rw [List.map_map]
      apply List.map_congr_left
      intro t ht
      rcases List.mem_filter.mp ht with ⟨-, hp⟩
      simp only [Bool.and_eq_true] at hp
      have hns : t.namespace_id = ns := by simpa using hp.1
      simp [pidKey, Function.comp, hns]
    rw [heq] at h1
    exact List.Nodup.of_map _ h1

/-- Soft deletion touches only `deleted_at`, leaving both key columns of
every row unchanged, so the unique constraints are preserved without any
guard. -/
lemma soft_delete_preserves_table_ok (db : DBSession) (tid time : Nat)
    (hok : table_args_ok db.tags = true) :
    table_args_ok (soft_delete_tag db tid time).tags = true := by
  unfold soft_delete_tag
  cases hf : db.tags.find? (fun t => t.id == tid) with
  | none => exact hok
  | some u =>
    have hname : (db.tags.map (fun v =>
        if v.id == tid then { v with deleted_at := some time } else v)).map
          nameKey = db.tags.map nameKey := by
      rw [List.map_map]
      apply List.map_congr_left
      intro v _
      by_cases hv : (v.id == tid) = true
      · simp [Function.comp, hv, nameKey]
      · simp [Function.comp, hv, nameKey]
    have hpid : (db.tags.map (fun v =>
        if v.id == tid then { v with deleted_at := some time } else v)).map
          pidKey = db.tags.map pidKey := by
      rw [List.map_map]
      apply List.map_congr_left
      intro v _
      by_cases hv : (v.id == tid) = true
      · simp [Function.comp, hv, pidKey]
      · simp [Function.comp, hv, pidKey]
    simp only [after_tag_update, table_args_ok, hname, hpid]
    rw [table_args_ok] at hok
    exact hok

/-- Claim C9: under the two composite unique constraints of
`__table_args__` (taken over all rows, as declared), the active rows of
every namespace have pairwise distinct names and pairwise distinct public
ids; and each operation of the subsystem — constraint-guarded insert,
rename and canonical provisioning, and soft deletion — preserves the
constraints. -/
theorem unique_constraints_invariant (db : DBSession)
    (hok : table_args_ok db.tags = true) :
    (∀ ns : Nat,
      ((db.tags.filter (fun t => t.namespace_id == ns
        && t.deleted_at == none)).map Tag.name).Nodup
      ∧ ((db.tags.filter (fun t => t.namespace_id == ns
        && t.deleted_at == none)).map Tag.public_id).Nodup)
    ∧ (∀ t, table_args_ok (create_tag_guarded db t).tags = true)
    ∧ (∀ tid newName,
        table_args_ok (rename_tag_guarded db tid newName).tags = true)
    ∧ (∀ tid time,
        table_args_ok (soft_delete_tag db tid time).tags = true)
    ∧ (∀ ns fresh,
        table_args_ok (create_canonical_tags_guarded ns db fresh).tags
          = true) := by
  refine ⟨fun ns => active_keys_nodup_of_table_ok db.tags ns hok,
    ?_, ?_, fun tid time => soft_delete_preserves_table_ok db tid time hok,
    ?_⟩
  · intro t
    simp only [create_tag_guarded]
    split
    · assumption
    · exact hok
  · intro tid newName
    simp only [rename_tag_guarded]
    split
    · assumption
    · exact hok
  · intro ns fresh
    simp only [create_canonical_tags_guarded]
    split
    · assumption
    · exact hok

/-- A database satisfying both unique constraints: two namespaces, one
shared name across namespaces, one soft-deleted row. -/
def dbUnique : DBSession :=
  ⟨[{ id := 1, namespace_id := 1, public_id := "inbox", name := "inbox",
      user_created := false, deleted_at := none },
    { id := 2, namespace_id := 1, public_id := "aaa", name := "work",
      user_created := true, deleted_at := none },
    { id := 3, namespace_id := 1, public_id := "bbb", name := "old",
      user_created := true, deleted_at := some 4 },
    { id := 4, namespace_id := 2, public_id := "ccc", name := "work",
      user_created := true, deleted_at := none }], []⟩

/-- Claim C9, witness: the invariant and each preservation clause
instantiated on `dbUnique`. -/
theorem unique_constraints_invariant_witness :
    (table_args_ok dbUnique.tags = true)
    ∧ ((dbUnique.tags.filter (fun t => t.namespace_id == 1
        && t.deleted_at == none)).map Tag.name).Nodup
    ∧ (table_args_ok (create_tag_guarded dbUnique userTagExample).tags
        = true)
    ∧ (table_args_ok (rename_tag_guarded dbUnique 2 "projects").tags
        = true)
    ∧ (table_args_ok (soft_delete_tag dbUnique 2 9).tags = true)
    ∧ (table_args_ok (create_canonical_tags_guarded 1 dbUnique 50).tags
        = true) :=
  ⟨by decide,
   ((unique_constraints_invariant dbUnique (by decide)).1 1).1,
   (unique_constraints_invariant dbUnique (by decide)).2.1 userTagExample,
   (unique_constraints_invariant dbUnique (by decide)).2.2.1 2 "projects",
   (unique_constraints_invariant dbUnique (by decide)).2.2.2.1 2 9,
   (unique_constraints_invariant dbUnique (by decide)).2.2.2.2 1 50⟩

end SyncEngine
